import Mathlib

/-!
Verification of the client epoch queue (`client/order/epochqueue.go`).

Byte strings (`[]byte`, and the fixed 32-byte `order.OrderID`,
`order.Commitment`, `order.Preimage` arrays) are modeled as `List Nat`.
The external hash `blake256.Sum256` is modeled as an explicit function
parameter `Hash : Bytes → Bytes`; every property proved here holds for an
arbitrary hash function, hence in particular for BLAKE-256.  The Go map
`orders map[order.OrderID]order.Commitment` is modeled as an association
list whose keys are kept distinct by the update operation, mirroring map
semantics; Go's unspecified map iteration order corresponds to the list
order of the association list, and order-independence results are proved
as permutation invariance of that list.
-/

/-- Byte strings: each element models one byte. -/
abbrev Bytes := List Nat

/-- `order.OrderIDSize` (32 bytes). -/
def OrderIDSize : Nat := 32

/-- `order.CommitmentSize` (32 bytes). -/
def CommitmentSize : Nat := 32

/-- `order.PreimageSize` (32 bytes). -/
def PreimageSize : Nat := 32

/-- Go's `var a [n]byte; copy(a[:], b)`: the first `min n (length b)` bytes
of `b` followed by zero padding up to length `n`. -/
def toFixed (n : Nat) (b : Bytes) : Bytes :=
  b.take n ++ List.replicate (n - b.length) 0

/-- The zero value of an `order.Preimage` (`[32]byte`), returned by a Go
map lookup of an absent key. -/
def zeroPreimage : Bytes := List.replicate PreimageSize 0

/-- `msgjson.EpochOrderNote`, flattened: the fields the epoch queue and its
callers read (`MarketID`, `OrderID`, `Commitment`, plus the trade fields
`Side`, `Rate`, `Quantity`). -/
structure EpochOrderNote where
  marketID : String
  side : Nat
  rate : Nat
  quantity : Nat
  orderID : Bytes
  commitment : Bytes
deriving DecidableEq

/-- `EpochQueue`: the per-epoch map `orders : OrderID → Commitment`,
modeled as an association list with distinct keys (the mutex is a
concurrency artifact with no sequential semantics). -/
structure EpochQueue where
  orders : List (Bytes × Bytes)
deriving DecidableEq

/-- `NewEpochQueue`: empty map. -/
def NewEpochQueue : EpochQueue := ⟨[]⟩

/-- `(*EpochQueue).Reset`: replaces the map with a fresh empty one. -/
def EpochQueue.Reset (_q : EpochQueue) : EpochQueue := ⟨[]⟩

/-- Go map assignment `m[k] = v`: overwrite the entry for `k` if present,
otherwise add a new entry. -/
def mapSet (m : List (Bytes × Bytes)) (k v : Bytes) : List (Bytes × Bytes) :=
  if m.any (fun e => e.1 == k) then
    m.map (fun e => if e.1 == k then (k, v) else e)
  else
    m ++ [(k, v)]

/-- `(*EpochQueue).Enqueue`: copy the note's order ID and commitment into
fixed 32-byte values and store `orders[oid] = commit`. -/
def EpochQueue.Enqueue (q : EpochQueue) (note : EpochOrderNote) : EpochQueue :=
  ⟨mapSet q.orders (toFixed OrderIDSize note.orderID)
    (toFixed CommitmentSize note.commitment)⟩

/-- `(*EpochQueue).Size`: `len(eq.orders)`. -/
def EpochQueue.Size (q : EpochQueue) : Nat := q.orders.length

/-- `(*EpochQueue).Exists`: whether the order id has an entry in the map. -/
def EpochQueue.Exists (q : EpochQueue) (oid : Bytes) : Bool :=
  q.orders.any (fun e => e.1 == oid)

/-- Go map lookup `m[k]` with the zero value `d` for an absent key. -/
def mapGetD (m : List (Bytes × Bytes)) (k : Bytes) (d : Bytes) : Bytes :=
  match m.find? (fun e => e.1 == k) with
  | some e => e.2
  | none => d

/-- Go's `bytes.Compare`: lexicographic byte comparison, a shorter prefix
ordering before its extensions. -/
def bcompare : Bytes → Bytes → Ordering
  | [], [] => .eq
  | [], _ :: _ => .lt
  | _ :: _, [] => .gt
  | a :: as, b :: bs =>
    if a < b then .lt else if b < a then .gt else bcompare as bs

/-- The non-strict order `bytes.Compare a b ≤ 0` that characterizes the
slices produced by `sort.Slice` with less function
`bytes.Compare(x[i][:], x[j][:]) < 0`. -/
def bLE (a b : Bytes) : Prop := bcompare a b ≠ Ordering.gt

instance : DecidableRel bLE := fun a b => by
  unfold bLE; infer_instance

/-- `sort.Slice(x, func(i, j int) bool { return bytes.Compare(x[i][:], x[j][:]) < 0 })`:
the ascending reordering of the slice by raw byte value.  Any correct
sorting algorithm models it, because a permutation sorted with respect to
the antisymmetric total order `bLE` is unique; insertion sort is used. -/
def sortBytes (l : List Bytes) : List Bytes := List.insertionSort bLE l

/-- The error value of `GenerateMatchProof`: the
`"expected all remaining epoch orders (%v) matched to a preimage (%v)"`
failure, carrying the two counts interpolated into the message. -/
inductive MatchProofError where
  | unmatched (numMatched numOrders : Nat)
deriving DecidableEq

/-- The miss-pruning loop of `GenerateMatchProof`:
`for i := range misses { delete(eq.orders, misses[i]) }`. -/
def pruneMisses (orders : List (Bytes × Bytes)) (misses : List Bytes) :
    List (Bytes × Bytes) :=
  orders.filter (fun e => !(misses.contains e.1))

/-- One iteration of the preimage-matching loop of `GenerateMatchProof`:
scan the orders map for the first entry whose commitment equals the
preimage's hash and, if found, record `orderPreimages[oid] = preimage`. -/
def mpStep (Hash : Bytes → Bytes) (orders : List (Bytes × Bytes))
    (acc : List (Bytes × Bytes)) (p : Bytes) : List (Bytes × Bytes) :=
  match orders.find? (fun e => e.2 == Hash p) with
  | some e => mapSet acc e.1 p
  | none => acc

/-- The preimage-matching loop of `GenerateMatchProof`: build the
`orderPreimages` map by running `mpStep` over every received preimage. -/
def matchPreimages (Hash : Bytes → Bytes) (orders : List (Bytes × Bytes))
    (preimages : List Bytes) : List (Bytes × Bytes) :=
  preimages.foldl (mpStep Hash orders) []

/-- `(*EpochQueue).GenerateMatchProof(preimages, misses)`: prune misses,
match preimages to commitments, enforce completeness, then hash the
preimages concatenated in ascending-order-ID order (the seed) and the
commitments concatenated in ascending-commitment order (the checksum).
Returns the queue state after the call together with the
`(seed, csum, error)` result, encoded as `Except` (`error` means both
returned slices are nil). -/
def EpochQueue.GenerateMatchProof (q : EpochQueue) (Hash : Bytes → Bytes)
    (preimages : List Bytes) (misses : List Bytes) :
    EpochQueue × Except MatchProofError (Bytes × Bytes) :=
  let orders := pruneMisses q.orders misses
  let orderPreimages := matchPreimages Hash orders preimages
  if orderPreimages.length ≠ orders.length then
    (⟨orders⟩, .error (.unmatched orderPreimages.length orders.length))
  else
    let oids := sortBytes (orders.map Prod.fst)
    let commits := sortBytes (orders.map Prod.snd)
    let sbuff := (oids.map (fun oid => mapGetD orderPreimages oid zeroPreimage)).flatten
    let cbuff := commits.flatten
    (⟨orders⟩, .ok (Hash sbuff, Hash cbuff))

/-! ### Properties of the byte ordering and of `sortBytes` -/

theorem bcompare_swap (a b : Bytes) : bcompare b a = (bcompare a b).swap := by
  induction a generalizing b with
  | nil => cases b <;> simp [bcompare, Ordering.swap]
  | cons x xs ih =>
    cases b with
    | nil => simp [bcompare, Ordering.swap]
    | cons y ys =>
      rcases Nat.lt_trichotomy x y with h | h | h
      · simp [bcompare, h, Nat.lt_asymm h, Ordering.swap]
      · subst h
        simp [bcompare, Nat.lt_irrefl, ih]
      · simp [bcompare, h, Nat.lt_asymm h, Ordering.swap]

theorem bcompare_eq_iff {a b : Bytes} : bcompare a b = Ordering.eq ↔ a = b := by
  induction a generalizing b with
  | nil => cases b <;> simp [bcompare]
  | cons x xs ih =>
    cases b with
    | nil => simp [bcompare]
    | cons y ys =>
      rcases Nat.lt_trichotomy x y with h | h | h
      · simp [bcompare, h]
        exact fun hxy => absurd hxy (Nat.ne_of_lt h)
      · subst h
        simp [bcompare, Nat.lt_irrefl, ih]
      · simp [bcompare, h, Nat.lt_asymm h]
        exact fun hxy => absurd hxy.symm (Nat.ne_of_lt h)

theorem bLE_total (a b : Bytes) : bLE a b ∨ bLE b a := by
  unfold bLE
  rcases h : bcompare a b with _ | _ | _
  · left; simp [h]
  · left; simp [h]
  · right
    rw [bcompare_swap a b, h]
    simp [Ordering.swap]

theorem bLE_antisymm {a b : Bytes} (h₁ : bLE a b) (h₂ : bLE b a) : a = b := by
  unfold bLE at h₁ h₂
  rw [bcompare_swap] at h₂
  rcases h : bcompare a b with _ | _ | _
  · rw [h] at h₂; simp [Ordering.swap] at h₂
  · exact bcompare_eq_iff.mp h
  · exact absurd h h₁

theorem bLE_trans {a b c : Bytes} (h₁ : bLE a b) (h₂ : bLE b c) : bLE a c := by
  unfold bLE at *
  induction a generalizing b c with
  | nil => cases c <;> simp [bcompare]
  | cons x xs ih =>
    cases b with
    | nil => exact absurd rfl h₁
    | cons y ys =>
      cases c with
      | nil => exact absurd rfl h₂
      | cons z zs =>
        rcases Nat.lt_trichotomy x y with hxy | hxy | hxy
        · rcases Nat.lt_trichotomy y z with hyz | hyz | hyz
          · simp [bcompare, Nat.lt_trans hxy hyz]
          · subst hyz; simp [bcompare, hxy]
          · simp [bcompare, hyz, Nat.lt_asymm hyz] at h₂
        · subst hxy
          rcases Nat.lt_trichotomy x z with hyz | hyz | hyz
          · simp [bcompare, hyz]
          · subst hyz
            simp only [bcompare, Nat.lt_irrefl, if_false] at h₁ h₂ ⊢
            exact ih h₁ h₂
          · simp [bcompare, hyz, Nat.lt_asymm hyz] at h₂
        · simp [bcompare, hxy, Nat.lt_asymm hxy] at h₁

instance : IsTotal Bytes bLE := ⟨bLE_total⟩

instance : IsTrans Bytes bLE := ⟨fun _ _ _ => bLE_trans⟩

instance : IsAntisymm Bytes bLE := ⟨fun _ _ => bLE_antisymm⟩

theorem sortBytes_perm (l : List Bytes) : (sortBytes l).Perm l :=
  List.perm_insertionSort bLE l

theorem sortBytes_sorted (l : List Bytes) : List.Sorted bLE (sortBytes l) :=
  List.sorted_insertionSort bLE l

theorem sortBytes_eq_of_perm {l₁ l₂ : List Bytes} (h : l₁.Perm l₂) :
    sortBytes l₁ = sortBytes l₂ :=
  List.eq_of_perm_of_sorted
    (((sortBytes_perm l₁).trans h).trans (sortBytes_perm l₂).symm)
    (sortBytes_sorted l₁) (sortBytes_sorted l₂)

/-! ### Association-list (Go map) lemmas -/

theorem mapSet_keys (m : List (Bytes × Bytes)) (k v : Bytes) :
    (mapSet m k v).map Prod.fst =
      if m.any (fun e => e.1 == k) then m.map Prod.fst
      else m.map Prod.fst ++ [k] := by
  unfold mapSet
  split
  · rw [List.map_map]
    refine congrArg₂ _ ?_ rfl
    funext e
    by_cases h : e.1 = k <;> simp [Function.comp, h]
  · simp

theorem mapSet_length (m : List (Bytes × Bytes)) (k v : Bytes) :
    (mapSet m k v).length =
      if m.any (fun e => e.1 == k) then m.length else m.length + 1 := by
  unfold mapSet
  split <;> simp

theorem mapSet_mem {m : List (Bytes × Bytes)} {k v : Bytes} {x : Bytes × Bytes}
    (h : x ∈ mapSet m k v) : x = (k, v) ∨ x ∈ m := by
  unfold mapSet at h
  split at h
  · rcases List.mem_map.mp h with ⟨e, he, hx⟩
    by_cases hek : e.1 = k
    · simp [hek] at hx; left; exact hx.symm
    · simp [hek] at hx; right; exact hx ▸ he
  · rcases List.mem_append.mp h with h' | h'
    · right; exact h'
    · left; simpa using h'

theorem fst_nodup_mem_unique {m : List (Bytes × Bytes)} {a b : Bytes × Bytes}
    (hnd : (m.map Prod.fst).Nodup) (ha : a ∈ m) (hb : b ∈ m)
    (hfst : a.1 = b.1) : a = b := by
  induction m with
  | nil => cases ha
  | cons e t ih =>
    simp only [List.map_cons, List.nodup_cons] at hnd
    rcases List.mem_cons.mp ha with ha' | ha' <;>
      rcases List.mem_cons.mp hb with hb' | hb'
    · exact ha'.trans hb'.symm
    · have hmem : b.1 ∈ t.map Prod.fst := List.mem_map.mpr ⟨b, hb', rfl⟩
      rw [← hfst, ha'] at hmem
      exact absurd hmem hnd.1
    · have hmem : a.1 ∈ t.map Prod.fst := List.mem_map.mpr ⟨a, ha', rfl⟩
      rw [hfst, hb'] at hmem
      exact absurd hmem hnd.1
    · exact ih hnd.2 ha' hb'

theorem pruneMisses_nil (orders : List (Bytes × Bytes)) :
    pruneMisses orders [] = orders := by
  unfold pruneMisses
  simp

theorem pruneMisses_sublist (orders : List (Bytes × Bytes)) (misses : List Bytes) :
    (pruneMisses orders misses).Sublist orders :=
  List.filter_sublist orders

theorem pruneMisses_fst_nodup {orders : List (Bytes × Bytes)} (misses : List Bytes)
    (hnd : (orders.map Prod.fst).Nodup) :
    ((pruneMisses orders misses).map Prod.fst).Nodup :=
  ((pruneMisses_sublist orders misses).map Prod.fst).nodup hnd

theorem mapSet_keys_nodup {m : List (Bytes × Bytes)} (k v : Bytes)
    (hnd : (m.map Prod.fst).Nodup) : ((mapSet m k v).map Prod.fst).Nodup := by
  rw [mapSet_keys]
  split
  · exact hnd
  · next h =>
    have hk : k ∉ m.map Prod.fst := by
      intro hmem
      rcases List.mem_map.mp hmem with ⟨e, he, hek⟩
      exact h (List.any_eq_true.mpr ⟨e, he, by simp [hek]⟩)
    simp [List.nodup_append, hnd, hk]

theorem mp_fold_keys_nodup (Hash : Bytes → Bytes) (os : List (Bytes × Bytes))
    (ps : List Bytes) :
    ∀ acc : List (Bytes × Bytes), (acc.map Prod.fst).Nodup →
      ((ps.foldl (mpStep Hash os) acc).map Prod.fst).Nodup := by
  induction ps with
  | nil => intro acc h; simpa using h
  | cons p ps ih =>
    intro acc h
    rw [List.foldl_cons]
    refine ih _ ?_
    unfold mpStep
    split
    · exact mapSet_keys_nodup _ _ h
    · exact h

theorem mp_fold_keys_sub (Hash : Bytes → Bytes) (os : List (Bytes × Bytes))
    (ps : List Bytes) :
    ∀ acc : List (Bytes × Bytes), ∀ x,
      x ∈ (ps.foldl (mpStep Hash os) acc).map Prod.fst →
      x ∈ acc.map Prod.fst ∨
        ∃ p ∈ ps, ∃ e, os.find? (fun e => e.2 == Hash p) = some e ∧ e.1 = x := by
  induction ps with
  | nil => intro acc x h; left; simpa using h
  | cons p ps ih =>
    intro acc x h
    rw [List.foldl_cons] at h
    rcases ih _ x h with h' | ⟨p', hp', e, hfind, hex⟩
    · unfold mpStep at h'
      split at h'
      · next e hfind =>
        rw [mapSet_keys] at h'
        split at h'
        · left; exact h'
        · rcases List.mem_append.mp h' with h'' | h''
          · left; exact h''
          · right
            have hx : x = e.1 := by simpa using h''
            exact ⟨p, List.mem_cons_self p ps, e, hfind, hx.symm⟩
      · left; exact h'
    · right; exact ⟨p', List.mem_cons_of_mem p hp', e, hfind, hex⟩

theorem mp_fold_mem (Hash : Bytes → Bytes) (os : List (Bytes × Bytes))
    (ps : List Bytes) :
    ∀ acc : List (Bytes × Bytes), ∀ x,
      x ∈ ps.foldl (mpStep Hash os) acc →
      x ∈ acc ∨
        ∃ p ∈ ps, ∃ e, os.find? (fun e => e.2 == Hash p) = some e ∧ x = (e.1, p) := by
  induction ps with
  | nil => intro acc x h; left; simpa using h
  | cons p ps ih =>
    intro acc x h
    rw [List.foldl_cons] at h
    rcases ih _ x h with h' | ⟨p', hp', e, hfind, hex⟩
    · unfold mpStep at h'
      split at h'
      · next e hfind =>
        rcases mapSet_mem h' with h'' | h''
        · right; exact ⟨p, List.mem_cons_self p ps, e, hfind, h''⟩
        · left; exact h''
      · left; exact h'
    · right; exact ⟨p', List.mem_cons_of_mem p hp', e, hfind, hex⟩

/-- If some queued order's entry is never returned by the preimage scan,
the `orderPreimages` map ends up strictly smaller than the orders map. -/
theorem matchPreimages_length_lt (Hash : Bytes → Bytes)
    {os : List (Bytes × Bytes)} {ps : List Bytes} {e₀ : Bytes × Bytes}
    (hnd : (os.map Prod.fst).Nodup) (hmem : e₀ ∈ os)
    (hexc : ∀ p ∈ ps, os.find? (fun e => e.2 == Hash p) ≠ some e₀) :
    (matchPreimages Hash os ps).length < os.length := by
  have hkeysnd : ((matchPreimages Hash os ps).map Prod.fst).Nodup :=
    mp_fold_keys_nodup Hash os ps [] (by simp)
  have hsub : ∀ x ∈ (matchPreimages Hash os ps).map Prod.fst,
      x ∈ (os.map Prod.fst).erase e₀.1 := by
    intro x hx
    rcases mp_fold_keys_sub Hash os ps [] x hx with h | ⟨p, hp, e, hfind, hex⟩
    · simp at h
    · have he : e ∈ os := List.mem_of_find?_eq_some hfind
      have hne : x ≠ e₀.1 := by
        intro hxe
        exact hexc p hp (by rw [fst_nodup_mem_unique hnd he hmem (hex.trans hxe)] at hfind; exact hfind)
      exact (List.mem_erase_of_ne hne).mpr (hex ▸ List.mem_map.mpr ⟨e, he, rfl⟩)
  have hle : ((matchPreimages Hash os ps).map Prod.fst).length ≤
      ((os.map Prod.fst).erase e₀.1).length :=
    (hkeysnd.subperm hsub).length_le
  have hlen : ((os.map Prod.fst).erase e₀.1).length = os.length - 1 := by
    rw [List.length_erase_of_mem (List.mem_map.mpr ⟨e₀, hmem, rfl⟩), List.length_map]
  have hpos : 0 < os.length := List.length_pos.mpr (List.ne_nil_of_mem hmem)
  calc (matchPreimages Hash os ps).length
      = ((matchPreimages Hash os ps).map Prod.fst).length := (List.length_map _ _).symm
    _ ≤ os.length - 1 := hlen ▸ hle
    _ < os.length := Nat.sub_lt hpos Nat.one_pos

/-- When commitments are pairwise distinct, the scan for a commitment value
present in the map returns exactly its (unique) entry, wherever it sits. -/
theorem find?_snd_unique {os : List (Bytes × Bytes)} {o c : Bytes}
    (hnd : (os.map Prod.snd).Nodup) (hmem : (o, c) ∈ os) :
    os.find? (fun e => e.2 == c) = some (o, c) := by
  induction os with
  | nil => cases hmem
  | cons a t ih =>
    simp only [List.map_cons, List.nodup_cons] at hnd
    rcases List.mem_cons.mp hmem with h | h
    · rw [← h]
      exact List.find?_cons_of_pos _ (by simp)
    · have hne : (a.2 == c) = false := by
        simp only [beq_eq_false_iff_ne, ne_eq]
        intro hac
        exact hnd.1 (hac ▸ List.mem_map.mpr ⟨(o, c), h, rfl⟩)
      have hstep : List.find? (fun e => e.2 == c) (a :: t) =
          List.find? (fun e => e.2 == c) t := by
        simp [List.find?_cons, hne]
      rw [hstep]
      exact ih hnd.2 h

/-- With pairwise-distinct commitments, the result of the first-match scan
depends only on the set of entries, not on their order. -/
theorem find?_congr_perm {os os' : List (Bytes × Bytes)} (h : os.Perm os')
    (hnd : (os.map Prod.snd).Nodup) (v : Bytes) :
    os.find? (fun e => e.2 == v) = os'.find? (fun e => e.2 == v) := by
  have hnd' : (os'.map Prod.snd).Nodup := ((h.map Prod.snd).nodup_iff).mp hnd
  rcases hf : os.find? (fun e => e.2 == v) with _ | ⟨eo, ec⟩
  · have hall := List.find?_eq_none.mp hf
    rw [hf]
    symm
    rw [List.find?_eq_none]
    intro x hx
    exact hall x (h.mem_iff.mpr hx)
  · have hev : ec = v := by
      have := List.find?_some hf
      simpa using this
    subst hev
    have hmem : (eo, ec) ∈ os' := h.mem_iff.mp (List.mem_of_find?_eq_some hf)
    rw [hf, find?_snd_unique hnd' hmem]

/-- With pairwise-distinct commitments, the whole `orderPreimages` map is
independent of the iteration order of the orders map. -/
theorem matchPreimages_congr_perm (Hash : Bytes → Bytes)
    {os os' : List (Bytes × Bytes)} (h : os.Perm os')
    (hnd : (os.map Prod.snd).Nodup) (ps : List Bytes) :
    matchPreimages Hash os ps = matchPreimages Hash os' ps := by
  unfold matchPreimages
  have hstep : mpStep Hash os = mpStep Hash os' := by
    funext acc p
    unfold mpStep
    rw [find?_congr_perm h hnd (Hash p)]
  rw [hstep]

/-- Preimages that hash to no queued commitment are skipped by the
matching loop. -/
theorem matchPreimages_extra (Hash : Bytes → Bytes) (os : List (Bytes × Bytes))
    (ps extra : List Bytes)
    (hextra : ∀ p ∈ extra, ∀ e ∈ os, e.2 ≠ Hash p) :
    matchPreimages Hash os (ps ++ extra) = matchPreimages Hash os ps := by
  unfold matchPreimages
  rw [List.foldl_append]
  generalize ps.foldl (mpStep Hash os) [] = acc
  induction extra with
  | nil => simp
  | cons p t ih =>
    rw [List.foldl_cons]
    have hnone : os.find? (fun e => e.2 == Hash p) = none := by
      rw [List.find?_eq_none]
      intro x hx
      simp only [beq_iff_eq]
      exact hextra p (List.mem_cons_self p t) x hx
    have hstep : mpStep Hash os acc p = acc := by
      unfold mpStep
      rw [hnone]
    rw [hstep]
    exact ih (fun p' hp' => hextra p' (List.mem_cons_of_mem p hp'))

/-- Matching against an empty orders map produces the empty map. -/
theorem matchPreimages_nil_orders (Hash : Bytes → Bytes) (ps : List Bytes) :
    matchPreimages Hash [] ps = [] := by
  unfold matchPreimages
  induction ps with
  | nil => rfl
  | cons p t ih =>
    rw [List.foldl_cons]
    have hstep : mpStep Hash [] [] p = [] := by
      unfold mpStep
      simp
    rw [hstep]
    exact ih

/-- In a complete run — distinct order ids, distinct commitments, and the
commitment of every order being the hash of its own preimage — feeding the
preimages of `qs` one by one rebuilds exactly the association `qs`. -/
theorem mp_fold_complete (Hash : Bytes → Bytes) (qs : List (Bytes × Bytes))
    (hoid : (qs.map Prod.fst).Nodup)
    (hcom : (qs.map (fun e => Hash e.2)).Nodup) :
    ∀ qs₂ qs₁ : List (Bytes × Bytes), qs₁ ++ qs₂ = qs →
      (qs₂.map Prod.snd).foldl
        (mpStep Hash (qs.map (fun e => (e.1, Hash e.2)))) qs₁ = qs := by
  have hos : (qs.map (fun e => (e.1, Hash e.2))).map Prod.snd =
      qs.map (fun e => Hash e.2) := by
    rw [List.map_map]; rfl
  intro qs₂
  induction qs₂ with
  | nil => intro qs₁ heq; simpa using heq
  | cons e t ih =>
    obtain ⟨o, p⟩ := e
    intro qs₁ heq
    have hmem : (o, p) ∈ qs := by
      rw [← heq]
      exact List.mem_append.mpr (Or.inr (List.mem_cons_self _ _))
    have hfind : (qs.map (fun e => (e.1, Hash e.2))).find?
        (fun e => e.2 == Hash p) = some (o, Hash p) := by
      refine find?_snd_unique ?_ ?_
      · rw [hos]; exact hcom
      · exact List.mem_map.mpr ⟨(o, p), hmem, rfl⟩
    have ho1 : o ∉ qs₁.map Prod.fst := by
      have hnd := hoid
      rw [← heq, List.map_append, List.map_cons, List.nodup_append] at hnd
      intro hin
      exact hnd.2.2 hin (List.mem_cons_self _ _)
    have hno : ¬(qs₁.any (fun e => e.1 == o) = true) := by
      simp only [List.any_eq_true, beq_iff_eq]
      rintro ⟨e, he, heo⟩
      exact ho1 (heo ▸ List.mem_map.mpr ⟨e, he, rfl⟩)
    have hset : mapSet qs₁ o p = qs₁ ++ [(o, p)] := by
      unfold mapSet
      rw [if_neg hno]
    have hstep : mpStep Hash (qs.map (fun e => (e.1, Hash e.2))) qs₁ p =
        qs₁ ++ [(o, p)] := by
      unfold mpStep
      rw [hfind]
      exact hset
    rw [List.map_cons, List.foldl_cons, hstep]
    refine ih (qs₁ ++ [(o, p)]) ?_
    rw [List.append_assoc]
    simpa using heq

/-- `matchPreimages` run on a complete, collision-free epoch rebuilds the
full (order id, preimage) association. -/
theorem matchPreimages_complete (Hash : Bytes → Bytes) (qs : List (Bytes × Bytes))
    (hoid : (qs.map Prod.fst).Nodup)
    (hcom : (qs.map (fun e => Hash e.2)).Nodup) :
    matchPreimages Hash (qs.map (fun e => (e.1, Hash e.2))) (qs.map Prod.snd) = qs :=
  mp_fold_complete Hash qs hoid hcom qs [] rfl

/-! ### Further helper lemmas -/

/-- The queue state left behind by `GenerateMatchProof` is always the
miss-pruned orders map, whether the call succeeds or fails. -/
theorem generateMatchProof_fst (q : EpochQueue) (Hash : Bytes → Bytes)
    (ps ms : List Bytes) :
    (q.GenerateMatchProof Hash ps ms).1 = ⟨pruneMisses q.orders ms⟩ := by
  unfold EpochQueue.GenerateMatchProof
  dsimp only
  split <;> rfl

theorem find?_replace_self {m : List (Bytes × Bytes)} {k v : Bytes}
    (hex : m.any (fun e => e.1 == k) = true) :
    (m.map (fun e => if e.1 == k then (k, v) else e)).find?
      (fun e => e.1 == k) = some (k, v) := by
  induction m with
  | nil => simp at hex
  | cons a t ih =>
    by_cases ha : a.1 = k
    · simp [List.find?_cons, ha]
    · have hex' : t.any (fun e => e.1 == k) = true := by
        simp only [List.any_cons] at hex
        rcases Bool.or_eq_true_iff.mp hex with h | h
        · exact absurd (by simpa using h) ha
        · exact h
      have hmap : (a :: t).map (fun e => if e.1 == k then (k, v) else e) =
          a :: t.map (fun e => if e.1 == k then (k, v) else e) := by
        simp [ha]
      rw [hmap, List.find?_cons_of_neg _ (by simp [ha])]
      exact ih hex'

theorem find?_replace_other {m : List (Bytes × Bytes)} {k v oid : Bytes}
    (hne : oid ≠ k) :
    (m.map (fun e => if e.1 == k then (k, v) else e)).find?
      (fun e => e.1 == oid) = m.find? (fun e => e.1 == oid) := by
  induction m with
  | nil => rfl
  | cons a t ih =>
    by_cases ha : a.1 = k
    · have hmap : (a :: t).map (fun e => if e.1 == k then (k, v) else e) =
          (k, v) :: t.map (fun e => if e.1 == k then (k, v) else e) := by
        simp [ha]
      have h2 : ¬(a.1 == oid) = true := by
        simp only [beq_iff_eq]
        rw [ha]
        exact fun h => hne h.symm
      have hr : List.find? (fun e => e.1 == oid) (a :: t) =
          List.find? (fun e => e.1 == oid) t :=
        List.find?_cons_of_neg t h2
      rw [hmap,
        List.find?_cons_of_neg _
          (by simp only [beq_iff_eq]; intro h; exact hne h.symm),
        hr]
      exact ih
    · have hmap : (a :: t).map (fun e => if e.1 == k then (k, v) else e) =
          a :: t.map (fun e => if e.1 == k then (k, v) else e) := by
        simp [ha]
      rw [hmap]
      by_cases hao : a.1 = oid
      · rw [List.find?_cons_of_pos _ (by simp [hao]),
          List.find?_cons_of_pos _ (by simp [hao])]
      · rw [List.find?_cons_of_neg _ (by simp [hao]),
          List.find?_cons_of_neg _ (by simp [hao])]
        exact ih

/-! ### Claim theorems -/

/-- C4.  Miss exclusion: every order ID listed in `misses` is deleted
before anything else happens, so `GenerateMatchProof` on any queue,
preimages and misses returns exactly what it returns on the already-pruned
queue with the same preimages and no misses — as if the missed orders had
never existed.  In particular a missed order contributes to neither the
seed nor the checksum even when a valid preimage for it was supplied. -/
theorem generateMatchProof_miss_exclusion (Hash : Bytes → Bytes)
    (q : EpochQueue) (ps ms : List Bytes) :
    q.GenerateMatchProof Hash ps ms =
      EpochQueue.GenerateMatchProof ⟨pruneMisses q.orders ms⟩ Hash ps [] := by
  unfold EpochQueue.GenerateMatchProof
  rw [pruneMisses_nil]

/-- C5.  Hash link invariant: every (order ID, preimage) association the
matching step admits pairs an order with a preimage whose hash is exactly
the commitment recorded in the queue for that order ID, and the preimage
is one of those supplied; hence a preimage whose hash matches no queued
commitment is never associated with any order. -/
theorem matchPreimages_hash_link (Hash : Bytes → Bytes)
    (orders : List (Bytes × Bytes)) (ps : List Bytes) (o p : Bytes)
    (hmem : (o, p) ∈ matchPreimages Hash orders ps) :
    (o, Hash p) ∈ orders ∧ p ∈ ps := by
  rcases mp_fold_mem Hash orders ps [] (o, p) hmem with h | ⟨p', hp', e, hfind, hex⟩
  · simp at h
  · have hpv : e.2 = Hash p' := by
      have := List.find?_some hfind
      simpa using this
    have hord : e ∈ orders := List.mem_of_find?_eq_some hfind
    have ho : o = e.1 := congrArg Prod.fst hex
    have hp : p = p' := congrArg Prod.snd hex
    subst hp
    refine ⟨?_, hp'⟩
    rw [ho, ← hpv, Prod.mk.eta]
    exact hord

/-- Witness for C5 at a concrete run: one order committed to the hash of
one supplied preimage is matched, and the matched pair satisfies the hash
link. -/
theorem matchPreimages_hash_link_witness :
    (([1], (fun b : Bytes => 0 :: b) [2]) ∈ [(([1] : Bytes), ([0, 2] : Bytes))] ∧
      ([2] : Bytes) ∈ [([2] : Bytes)]) :=
  matchPreimages_hash_link (fun b => 0 :: b) [([1], [0, 2])] [[2]] [1] [2] (by decide)

/-- C10.  Degenerate success: when the queue is empty after miss pruning,
`GenerateMatchProof` succeeds with the hash of the empty byte string as
both seed and checksum rather than failing. -/
theorem generateMatchProof_empty_queue (Hash : Bytes → Bytes)
    (q : EpochQueue) (ps ms : List Bytes)
    (hempty : pruneMisses q.orders ms = []) :
    q.GenerateMatchProof Hash ps ms = (⟨[]⟩, .ok (Hash [], Hash [])) := by
  unfold EpochQueue.GenerateMatchProof
  dsimp only
  rw [hempty, matchPreimages_nil_orders]
  rfl

/-- Witness for C10: a freshly reset queue with no preimages and no misses
yields the hash of the empty string for both outputs. -/
theorem generateMatchProof_empty_queue_witness :
    EpochQueue.GenerateMatchProof NewEpochQueue.Reset (fun b => 0 :: b) [] [] =
      (⟨[]⟩, .ok ([0], [0])) :=
  generateMatchProof_empty_queue (fun b => 0 :: b) NewEpochQueue.Reset [] [] (by decide)

/-- C6.  Size/Exists consistency: enqueueing a note whose order ID is
absent makes `Exists` true for it and grows `Size` by exactly one, and
after `Reset` the size is zero and any previously present order ID no
longer exists. -/
theorem enqueue_reset_consistency (q q' : EpochQueue) (note : EpochOrderNote)
    (oid : Bytes)
    (habs : q.Exists (toFixed OrderIDSize note.orderID) = false)
    (hprev : q'.Exists oid = true) :
    (q.Enqueue note).Exists (toFixed OrderIDSize note.orderID) = true ∧
    (q.Enqueue note).Size = q.Size + 1 ∧
    q'.Reset.Size = 0 ∧ q'.Reset.Exists oid = false := by
  have hany : q.orders.any
      (fun e => e.1 == toFixed OrderIDSize note.orderID) = false := habs
  refine ⟨?_, ?_, rfl, rfl⟩
  · show (mapSet q.orders (toFixed OrderIDSize note.orderID)
      (toFixed CommitmentSize note.commitment)).any
        (fun e => e.1 == toFixed OrderIDSize note.orderID) = true
    unfold mapSet
    rw [if_neg (by simp [hany])]
    simp
  · show (mapSet q.orders (toFixed OrderIDSize note.orderID)
      (toFixed CommitmentSize note.commitment)).length = q.orders.length + 1
    unfold mapSet
    rw [if_neg (by simp [hany])]
    simp

/-- Witness for C6 at a concrete queue and note. -/
theorem enqueue_reset_consistency_witness :
    (EpochQueue.Enqueue ⟨[]⟩ ⟨"mkt", 0, 1, 2, [3], [4]⟩).Exists
      (toFixed OrderIDSize [3]) = true ∧
    (EpochQueue.Enqueue ⟨[]⟩ ⟨"mkt", 0, 1, 2, [3], [4]⟩).Size =
      EpochQueue.Size ⟨[]⟩ + 1 ∧
    (EpochQueue.Reset ⟨[([1], [2])]⟩).Size = 0 ∧
    (EpochQueue.Reset ⟨[([1], [2])]⟩).Exists [1] = false :=
  enqueue_reset_consistency ⟨[]⟩ ⟨[([1], [2])]⟩ ⟨"mkt", 0, 1, 2, [3], [4]⟩ [1]
    (by decide) (by decide)

/-- C7.  Last write wins: enqueueing a note whose order ID is already
present grows the size by at most one — in fact it leaves it unchanged —
replaces the recorded commitment with the note's commitment, and leaves
the entry of every other order ID untouched. -/
theorem enqueue_overwrite_frame (q : EpochQueue) (note : EpochOrderNote)
    (oid : Bytes)
    (hex : q.Exists (toFixed OrderIDSize note.orderID) = true)
    (hne : oid ≠ toFixed OrderIDSize note.orderID) :
    (q.Enqueue note).Size ≤ q.Size + 1 ∧
    (q.Enqueue note).Size = q.Size ∧
    (q.Enqueue note).orders.find?
        (fun e => e.1 == toFixed OrderIDSize note.orderID) =
      some (toFixed OrderIDSize note.orderID, toFixed CommitmentSize note.commitment) ∧
    (q.Enqueue note).orders.find? (fun e => e.1 == oid) =
      q.orders.find? (fun e => e.1 == oid) := by
  have hrep : mapSet q.orders (toFixed OrderIDSize note.orderID)
      (toFixed CommitmentSize note.commitment) =
      q.orders.map (fun e => if e.1 == toFixed OrderIDSize note.orderID then
        (toFixed OrderIDSize note.orderID, toFixed CommitmentSize note.commitment)
        else e) := by
    have hex' : (q.orders.any
        fun e => e.1 == toFixed OrderIDSize note.orderID) = true := hex
    unfold mapSet
    rw [if_pos hex']
  have hsize : (q.Enqueue note).Size = q.Size := by
    show (mapSet q.orders _ _).length = q.orders.length
    rw [hrep, List.length_map]
  refine ⟨by rw [hsize]; exact Nat.le_succ _, hsize, ?_, ?_⟩
  · show (mapSet q.orders _ _).find? _ = _
    rw [hrep]
    exact find?_replace_self hex
  · show (mapSet q.orders _ _).find? _ = _
    rw [hrep]
    exact find?_replace_other hne

/-- Witness for C7 at a concrete queue and a retransmitted note. -/
theorem enqueue_overwrite_frame_witness :
    (EpochQueue.Enqueue ⟨[(toFixed OrderIDSize [3], [9]), ([7], [8])]⟩
        ⟨"mkt", 0, 1, 2, [3], [4]⟩).Size ≤
      EpochQueue.Size ⟨[(toFixed OrderIDSize [3], [9]), ([7], [8])]⟩ + 1 ∧
    (EpochQueue.Enqueue ⟨[(toFixed OrderIDSize [3], [9]), ([7], [8])]⟩
        ⟨"mkt", 0, 1, 2, [3], [4]⟩).Size =
      EpochQueue.Size ⟨[(toFixed OrderIDSize [3], [9]), ([7], [8])]⟩ ∧
    (EpochQueue.Enqueue ⟨[(toFixed OrderIDSize [3], [9]), ([7], [8])]⟩
        ⟨"mkt", 0, 1, 2, [3], [4]⟩).orders.find?
        (fun e => e.1 == toFixed OrderIDSize [3]) =
      some (toFixed OrderIDSize [3], toFixed CommitmentSize [4]) ∧
    (EpochQueue.Enqueue ⟨[(toFixed OrderIDSize [3], [9]), ([7], [8])]⟩
        ⟨"mkt", 0, 1, 2, [3], [4]⟩).orders.find? (fun e => e.1 == [7]) =
      (⟨[(toFixed OrderIDSize [3], [9]), ([7], [8])]⟩ : EpochQueue).orders.find?
        (fun e => e.1 == [7]) :=
  enqueue_overwrite_frame ⟨[(toFixed OrderIDSize [3], [9]), ([7], [8])]⟩
    ⟨"mkt", 0, 1, 2, [3], [4]⟩ [7] (by decide) (by decide)

/-- C8.  Non-atomic failure: even when `GenerateMatchProof` fails the
completeness check and returns an error, the queue has already been
mutated — its state is the miss-pruned map, and no missed order ID exists
in it any more. -/
theorem generateMatchProof_error_mutation (Hash : Bytes → Bytes)
    (q : EpochQueue) (ps ms : List Bytes) (err : MatchProofError) (m : Bytes)
    (herr : (q.GenerateMatchProof Hash ps ms).2 = .error err)
    (hm : m ∈ ms) :
    (q.GenerateMatchProof Hash ps ms).1.orders = pruneMisses q.orders ms ∧
    (q.GenerateMatchProof Hash ps ms).1.Exists m = false := by
  have h1 : (q.GenerateMatchProof Hash ps ms).1 = ⟨pruneMisses q.orders ms⟩ :=
    generateMatchProof_fst q Hash ps ms
  refine ⟨by rw [h1], ?_⟩
  rw [h1]
  show (pruneMisses q.orders ms).any (fun e => e.1 == m) = false
  rw [List.any_eq_false]
  intro e he
  simp only [pruneMisses, List.mem_filter] at he
  have hnotin : e.1 ∉ ms := by simpa using he.2
  simp only [beq_iff_eq]
  intro hem
  exact hnotin (hem ▸ hm)

/-- Witness for C8: a queue with one order, no preimages and an unrelated
miss fails the completeness check, yet the miss is already pruned. -/
theorem generateMatchProof_error_mutation_witness :
    (EpochQueue.GenerateMatchProof ⟨[([1], [2])]⟩ (fun b => 0 :: b) [] [[9]]).1.orders =
      pruneMisses [([1], [2])] [[9]] ∧
    (EpochQueue.GenerateMatchProof ⟨[([1], [2])]⟩ (fun b => 0 :: b) [] [[9]]).1.Exists [9] = false :=
  generateMatchProof_error_mutation (fun b => 0 :: b) ⟨[([1], [2])]⟩ [] [[9]]
    (.unmatched 0 1) [9] (by rfl) (by decide)

/-- Surplus preimages that hash to no remaining commitment leave the whole
result of `GenerateMatchProof` unchanged. -/
theorem generateMatchProof_extra_eq (Hash : Bytes → Bytes) (q : EpochQueue)
    (ps ms extra : List Bytes)
    (hextra : ∀ p ∈ extra, ∀ e ∈ pruneMisses q.orders ms, e.2 ≠ Hash p) :
    q.GenerateMatchProof Hash (ps ++ extra) ms = q.GenerateMatchProof Hash ps ms := by
  unfold EpochQueue.GenerateMatchProof
  dsimp only
  rw [matchPreimages_extra Hash _ ps extra hextra]

/-- C9.  Surplus tolerance: if a call succeeds, appending extra preimages
whose hashes match no remaining commitment still succeeds with the very
same seed and checksum (and the same final queue state). -/
theorem generateMatchProof_surplus_preimages (Hash : Bytes → Bytes)
    (q : EpochQueue) (ps ms extra : List Bytes) (s c : Bytes)
    (hok : (q.GenerateMatchProof Hash ps ms).2 = .ok (s, c))
    (hextra : ∀ p ∈ extra, ∀ e ∈ pruneMisses q.orders ms, e.2 ≠ Hash p) :
    q.GenerateMatchProof Hash (ps ++ extra) ms =
      (⟨pruneMisses q.orders ms⟩, .ok (s, c)) := by
  rw [generateMatchProof_extra_eq Hash q ps ms extra hextra]
  have h2 : q.GenerateMatchProof Hash ps ms =
      ((q.GenerateMatchProof Hash ps ms).1, (q.GenerateMatchProof Hash ps ms).2) := rfl
  rw [h2, generateMatchProof_fst q Hash ps ms, hok]

/-- Witness for C9: one matched order plus one surplus preimage. -/
theorem generateMatchProof_surplus_preimages_witness :
    EpochQueue.GenerateMatchProof ⟨[([1], [0, 5])]⟩ (fun b => 0 :: b) ([[5]] ++ [[7]]) [] =
      (⟨[([1], [0, 5])]⟩, .ok ([0, 5], [0, 0, 5])) :=
  generateMatchProof_surplus_preimages (fun b => 0 :: b) ⟨[([1], [0, 5])]⟩
    [[5]] [] [[7]] [0, 5] [0, 0, 5] (by rfl) (by decide)

/-- C2.  Completeness enforcement: if after pruning some remaining order
has no supplied preimage hashing to its commitment, `GenerateMatchProof`
returns the unmatched-orders error and hence neither seed nor checksum. -/
theorem generateMatchProof_unmatched_order_error (Hash : Bytes → Bytes)
    (q : EpochQueue) (ps ms : List Bytes) (e₀ : Bytes × Bytes)
    (hnd : (q.orders.map Prod.fst).Nodup)
    (hmem : e₀ ∈ pruneMisses q.orders ms)
    (hno : ∀ p ∈ ps, Hash p ≠ e₀.2) :
    (q.GenerateMatchProof Hash ps ms).2 =
      .error (.unmatched
        (matchPreimages Hash (pruneMisses q.orders ms) ps).length
        (pruneMisses q.orders ms).length) := by
  have hndp : ((pruneMisses q.orders ms).map Prod.fst).Nodup :=
    pruneMisses_fst_nodup ms hnd
  have hexc : ∀ p ∈ ps,
      (pruneMisses q.orders ms).find? (fun e => e.2 == Hash p) ≠ some e₀ := by
    intro p hp hf
    have hpred := List.find?_some hf
    simp only [beq_iff_eq] at hpred
    exact hno p hp hpred.symm
  have hlt := matchPreimages_length_lt Hash hndp hmem hexc
  unfold EpochQueue.GenerateMatchProof
  dsimp only
  rw [if_pos (Nat.ne_of_lt hlt)]

/-- Witness for C2: three queued orders, preimages supplied for only two,
the third neither revealed nor missed. -/
theorem generateMatchProof_unmatched_order_error_witness :
    (EpochQueue.GenerateMatchProof ⟨[([1], [0, 4]), ([2], [0, 5]), ([3], [0, 6])]⟩
        (fun b => 0 :: b) [[4], [5]] []).2 =
      .error (.unmatched 2 3) :=
  generateMatchProof_unmatched_order_error (fun b => 0 :: b)
    ⟨[([1], [0, 4]), ([2], [0, 5]), ([3], [0, 6])]⟩ [[4], [5]] [] ([3], [0, 6])
    (by decide) (by decide) (by decide)

/-- C1.  Complete run: on a queue whose commitments are the hashes of the
supplied preimages (distinct order ids, distinct commitments) and with no
misses, `GenerateMatchProof` succeeds; the seed is the hash of the
preimages concatenated in ascending raw-byte order of their order IDs,
and the checksum is the hash of the commitments concatenated in ascending
raw-byte order of the commitments themselves. -/
theorem generateMatchProof_complete_run (Hash : Bytes → Bytes)
    (qs : List (Bytes × Bytes))
    (hoid : (qs.map Prod.fst).Nodup)
    (hcom : (qs.map (fun e => Hash e.2)).Nodup) :
    EpochQueue.GenerateMatchProof ⟨qs.map (fun e => (e.1, Hash e.2))⟩ Hash
        (qs.map Prod.snd) [] =
      (⟨qs.map (fun e => (e.1, Hash e.2))⟩,
        .ok (Hash ((sortBytes (qs.map Prod.fst)).map
              (fun oid => mapGetD qs oid zeroPreimage)).flatten,
          Hash (sortBytes (qs.map (fun e => Hash e.2))).flatten)) := by
  have h1 : (qs.map (fun e => (e.1, Hash e.2))).map Prod.fst = qs.map Prod.fst := by
    rw [List.map_map]; rfl
  have h2 : (qs.map (fun e => (e.1, Hash e.2))).map Prod.snd =
      qs.map (fun e => Hash e.2) := by
    rw [List.map_map]; rfl
  unfold EpochQueue.GenerateMatchProof
  dsimp only
  rw [pruneMisses_nil, matchPreimages_complete Hash qs hoid hcom, h1, h2,
    if_neg (by simp)]

/-- Witness for C1: two orders with distinct ids and commitments; the seed
concatenates the preimages by ascending order ID and the checksum the
commitments by ascending commitment value. -/
theorem generateMatchProof_complete_run_witness :
    EpochQueue.GenerateMatchProof ⟨[([2], [0, 5]), ([1], [0, 6])]⟩
        (fun b => 0 :: b) [[5], [6]] [] =
      (⟨[([2], [0, 5]), ([1], [0, 6])]⟩, .ok ([0, 6, 5], [0, 0, 5, 0, 6])) :=
  generateMatchProof_complete_run (fun b => 0 :: b) [([2], [5]), ([1], [6])]
    (by decide) (by decide)

/-! ### Enqueue-order independence (C3) -/

/-- Enqueue a batch of notes in sequence: the successive `Enqueue` calls
made while an epoch is open, in lock-acquisition order. -/
def enqueueAll (q : EpochQueue) (ns : List EpochOrderNote) : EpochQueue :=
  ns.foldl EpochQueue.Enqueue q

/-- A list whose mapped commitments contain a duplicate splits around the
second entry carrying the duplicated commitment. -/
theorem exists_dup_split {l : List (Bytes × Bytes)}
    (h : ¬(l.map Prod.snd).Nodup) :
    ∃ pre e₂ post, l = pre ++ e₂ :: post ∧ ∃ e₁ ∈ pre, e₁.2 = e₂.2 := by
  induction l with
  | nil => simp at h
  | cons a t ih =>
    rw [List.map_cons, List.nodup_cons] at h
    by_cases hmem : a.2 ∈ t.map Prod.snd
    · obtain ⟨e₂, he₂, hsnd⟩ := List.mem_map.mp hmem
      obtain ⟨s, t', ht⟩ := List.append_of_mem he₂
      exact ⟨a :: s, e₂, t', by rw [ht]; rfl, a, List.mem_cons_self _ _, hsnd.symm⟩
    · have hnd : ¬(t.map Prod.snd).Nodup := fun hh => h ⟨hmem, hh⟩
      obtain ⟨pre, e₂, post, heq, e₁, he₁, hee⟩ := ih hnd
      exact ⟨a :: pre, e₂, post, by rw [heq]; rfl, e₁,
        List.mem_cons_of_mem a he₁, hee⟩

/-- When two remaining orders share a commitment, at most one of them can
ever be the first-found match, so the completeness check must fail. -/
theorem matchPreimages_dup_lt (Hash : Bytes → Bytes)
    {os : List (Bytes × Bytes)} (ps : List Bytes)
    (hnd : (os.map Prod.fst).Nodup) (hdup : ¬(os.map Prod.snd).Nodup) :
    (matchPreimages Hash os ps).length < os.length := by
  obtain ⟨pre, e₂, post, heq, e₁, he₁, hee⟩ := exists_dup_split hdup
  refine @matchPreimages_length_lt Hash os ps e₂ hnd ?_ ?_
  · rw [heq]
    exact List.mem_append.mpr (Or.inr (List.mem_cons_self _ _))
  · intro p hp hf
    have hpred := List.find?_some hf
    simp only [beq_iff_eq] at hpred
    have hpre_some : (pre.find? (fun e => e.2 == Hash p)).isSome := by
      rw [List.find?_isSome]
      exact ⟨e₁, he₁, beq_iff_eq.mpr (hee.trans hpred)⟩
    obtain ⟨e', he'⟩ := Option.isSome_iff_exists.mp hpre_some
    have hfind_eq : os.find? (fun e => e.2 == Hash p) = some e' := by
      rw [heq, List.find?_append, he']
      rfl
    rw [hfind_eq] at hf
    have he'e₂ : e' = e₂ := by injection hf
    have hmem' : e₂ ∈ pre := he'e₂ ▸ List.mem_of_find?_eq_some he'
    have hnd' := hnd
    rw [heq, List.map_append, List.map_cons, List.nodup_append] at hnd'
    exact hnd'.2.2 (List.mem_map.mpr ⟨e₂, hmem', rfl⟩) (List.mem_cons_self _ _)

/-- The `(seed, csum, error)` component of `GenerateMatchProof`, written
out without the returned queue state. -/
theorem generateMatchProof_snd (q : EpochQueue) (Hash : Bytes → Bytes)
    (ps ms : List Bytes) :
    (q.GenerateMatchProof Hash ps ms).2 =
      if (matchPreimages Hash (pruneMisses q.orders ms) ps).length ≠
          (pruneMisses q.orders ms).length then
        .error (.unmatched
          (matchPreimages Hash (pruneMisses q.orders ms) ps).length
          (pruneMisses q.orders ms).length)
      else
        .ok (Hash ((sortBytes ((pruneMisses q.orders ms).map Prod.fst)).map
              (fun oid => mapGetD (matchPreimages Hash (pruneMisses q.orders ms) ps)
                oid zeroPreimage)).flatten,
          Hash (sortBytes ((pruneMisses q.orders ms).map Prod.snd)).flatten) := by
  unfold EpochQueue.GenerateMatchProof
  dsimp only
  split <;> rfl

/-- Two queues holding the same set of (order id, commitment) entries with
distinct order ids produce the same seed and checksum (or both fail). -/
theorem generateMatchProof_queue_perm (Hash : Bytes → Bytes)
    {os os' : List (Bytes × Bytes)} (hperm : os.Perm os')
    (hnd : (os.map Prod.fst).Nodup) (ps ms : List Bytes) :
    (EpochQueue.GenerateMatchProof ⟨os⟩ Hash ps ms).2.toOption =
      (EpochQueue.GenerateMatchProof ⟨os'⟩ Hash ps ms).2.toOption := by
  have hprperm : (pruneMisses os ms).Perm (pruneMisses os' ms) := hperm.filter _
  have hndp : ((pruneMisses os ms).map Prod.fst).Nodup :=
    pruneMisses_fst_nodup ms hnd
  have hndp' : ((pruneMisses os' ms).map Prod.fst).Nodup :=
    ((hprperm.map Prod.fst).nodup_iff).mp hndp
  by_cases hsnd : ((pruneMisses os ms).map Prod.snd).Nodup
  · have hm := matchPreimages_congr_perm Hash hprperm hsnd ps
    have hlen := hprperm.length_eq
    have hsf : sortBytes ((pruneMisses os ms).map Prod.fst) =
        sortBytes ((pruneMisses os' ms).map Prod.fst) :=
      sortBytes_eq_of_perm (hprperm.map Prod.fst)
    have hss : sortBytes ((pruneMisses os ms).map Prod.snd) =
        sortBytes ((pruneMisses os' ms).map Prod.snd) :=
      sortBytes_eq_of_perm (hprperm.map Prod.snd)
    rw [generateMatchProof_snd, generateMatchProof_snd]
    dsimp only
    rw [hm, hlen, hsf, hss]
  · have hsnd' : ¬((pruneMisses os' ms).map Prod.snd).Nodup := by
      intro hh
      exact hsnd (((hprperm.map Prod.snd).nodup_iff).mpr hh)
    have hlt := matchPreimages_dup_lt Hash ps hndp hsnd
    have hlt' := matchPreimages_dup_lt Hash ps hndp' hsnd'
    rw [generateMatchProof_snd, generateMatchProof_snd]
    dsimp only
    rw [if_pos (Nat.ne_of_lt hlt), if_pos (Nat.ne_of_lt hlt')]
    rfl

/-- Enqueueing a batch of notes with fresh, pairwise-distinct order ids
appends their (order id, commitment) pairs in sequence. -/
theorem enqueueAll_orders : ∀ (ns : List EpochOrderNote) (q : EpochQueue),
    (q.orders.map Prod.fst ++
      ns.map (fun n => toFixed OrderIDSize n.orderID)).Nodup →
    (enqueueAll q ns).orders =
      q.orders ++ ns.map (fun n =>
        (toFixed OrderIDSize n.orderID, toFixed CommitmentSize n.commitment)) := by
  intro ns
  induction ns with
  | nil => intro q _; simp [enqueueAll]
  | cons n t ih =>
    intro q h
    rw [List.map_cons, List.nodup_append] at h
    have hk : toFixed OrderIDSize n.orderID ∉ q.orders.map Prod.fst := by
      intro hin
      exact h.2.2 hin (List.mem_cons_self _ _)
    have hany : (q.orders.any
        (fun e => e.1 == toFixed OrderIDSize n.orderID)) = false := by
      rw [List.any_eq_false]
      intro e he
      simp only [beq_iff_eq]
      intro hek
      exact hk (hek ▸ List.mem_map.mpr ⟨e, he, rfl⟩)
    have hstep : (q.Enqueue n).orders = q.orders ++
        [(toFixed OrderIDSize n.orderID, toFixed CommitmentSize n.commitment)] := by
      show mapSet _ _ _ = _
      unfold mapSet
      rw [if_neg (by simp [hany])]
    have hrec : (enqueueAll (q.Enqueue n) t).orders = (q.Enqueue n).orders ++
        t.map (fun n =>
          (toFixed OrderIDSize n.orderID, toFixed CommitmentSize n.commitment)) := by
      refine ih (q.Enqueue n) ?_
      rw [hstep, List.map_append]
      rw [List.append_assoc]
      have h' : (q.orders.map Prod.fst ++ (toFixed OrderIDSize n.orderID ::
          t.map (fun n => toFixed OrderIDSize n.orderID))).Nodup := by
        rw [List.nodup_append]
        exact h
      simpa using h'
    show (enqueueAll (q.Enqueue n) t).orders = _
    rw [hrec, hstep, List.append_assoc]
    rfl

/-- C3 counterexample: two epoch order notes sharing an order ID but
carrying different commitments.  Enqueueing the pair in its two
permutation orders and calling `GenerateMatchProof` with the same
preimages (the hash here is the identity on byte strings) and no misses
yields different seeds and checksums, because the later enqueue silently
overwrites the earlier commitment. -/
theorem generateMatchProof_enqueue_order_counterexample :
    ¬(((enqueueAll NewEpochQueue
          [⟨"", 0, 0, 0, [1], [2]⟩, ⟨"", 0, 0, 0, [1], [3]⟩]).GenerateMatchProof
          (fun b => b) [toFixed CommitmentSize [2], toFixed CommitmentSize [3]]
          []).2.toOption =
      ((enqueueAll NewEpochQueue
          [⟨"", 0, 0, 0, [1], [3]⟩, ⟨"", 0, 0, 0, [1], [2]⟩]).GenerateMatchProof
          (fun b => b) [toFixed CommitmentSize [2], toFixed CommitmentSize [3]]
          []).2.toOption) := by
  decide

/-- C3, amended: for notes whose (fixed-size) order IDs are pairwise
distinct, enqueueing any permutation of the same set of notes and calling
`GenerateMatchProof` with the same preimages and misses yields
byte-for-byte identical seed and checksum results. -/
theorem generateMatchProof_enqueue_perm_invariant (Hash : Bytes → Bytes)
    (ns ns' : List EpochOrderNote) (hperm : ns.Perm ns')
    (hnd : (ns.map (fun n => toFixed OrderIDSize n.orderID)).Nodup)
    (ps ms : List Bytes) :
    ((enqueueAll NewEpochQueue ns).GenerateMatchProof Hash ps ms).2.toOption =
      ((enqueueAll NewEpochQueue ns').GenerateMatchProof Hash ps ms).2.toOption := by
  have hnd' : (ns'.map (fun n => toFixed OrderIDSize n.orderID)).Nodup :=
    ((hperm.map _).nodup_iff).mp hnd
  have h1 : (enqueueAll NewEpochQueue ns).orders = ns.map (fun n =>
      (toFixed OrderIDSize n.orderID, toFixed CommitmentSize n.commitment)) := by
    have := enqueueAll_orders ns NewEpochQueue (by simpa using hnd)
    simpa using this
  have h2 : (enqueueAll NewEpochQueue ns').orders = ns'.map (fun n =>
      (toFixed OrderIDSize n.orderID, toFixed CommitmentSize n.commitment)) := by
    have := enqueueAll_orders ns' NewEpochQueue (by simpa using hnd')
    simpa using this
  have hosperm : (enqueueAll NewEpochQueue ns).orders.Perm
      (enqueueAll NewEpochQueue ns').orders := by
    rw [h1, h2]
    exact hperm.map _
  have hosnd : ((enqueueAll NewEpochQueue ns).orders.map Prod.fst).Nodup := by
    rw [h1, List.map_map]
    exact hnd
  exact generateMatchProof_queue_perm Hash hosperm hosnd ps ms

/-- Witness for the amended C3: two distinct-id notes enqueued in both
orders produce identical results. -/
theorem generateMatchProof_enqueue_perm_invariant_witness :
    ((enqueueAll NewEpochQueue
        [⟨"", 0, 0, 0, [1], [5]⟩, ⟨"", 0, 0, 0, [2], [6]⟩]).GenerateMatchProof
        (fun b => b) [toFixed CommitmentSize [5], toFixed CommitmentSize [6]]
        []).2.toOption =
      ((enqueueAll NewEpochQueue
        [⟨"", 0, 0, 0, [2], [6]⟩, ⟨"", 0, 0, 0, [1], [5]⟩]).GenerateMatchProof
        (fun b => b) [toFixed CommitmentSize [5], toFixed CommitmentSize [6]]
        []).2.toOption :=
  generateMatchProof_enqueue_perm_invariant (fun b => b)
    [⟨"", 0, 0, 0, [1], [5]⟩, ⟨"", 0, 0, 0, [2], [6]⟩]
    [⟨"", 0, 0, 0, [2], [6]⟩, ⟨"", 0, 0, 0, [1], [5]⟩]
    (List.Perm.swap (⟨"", 0, 0, 0, [2], [6]⟩ : EpochOrderNote)
      (⟨"", 0, 0, 0, [1], [5]⟩ : EpochOrderNote) [])
    (by decide) [toFixed CommitmentSize [5], toFixed CommitmentSize [6]] []
